import Mathlib

/-!
# Verification of the pyvisa block codec and architecture prober

Shallow embedding of `pyvisa/util.py`.

Byte buffers (`bytes` values in the source) are modelled as `List Nat`
(each entry one byte).  Packed floating-point elements are modelled by
their IEEE bit patterns: `struct.pack`/`struct.unpack` of an element of
byte width `size` is a bijection between the format's bit patterns
(naturals below `256 ^ size`) and `size`-byte strings, so a sequence of
floats in element format `f` is modelled as a list of naturals below
`256 ^ size` ("equal up to the precision of `f`" is equality of these
bit patterns).
-/

/-- Little-endian base-256 digits of `x`, `size` bytes, least significant
first.  Models the byte string `struct.pack` produces for one element. -/
def packLE : Nat → Nat → List Nat
  | 0, _ => []
  | s + 1, x => x % 256 :: packLE s (x / 256)

/-- One element packed per the endianness flag (`'>'` when `isBig`). -/
def packBytes (size : Nat) (isBig : Bool) (x : Nat) : List Nat :=
  if isBig then (packLE size x).reverse else packLE size x

/-- `struct.pack` of a whole sequence: elements packed one after another. -/
def packList (size : Nat) (isBig : Bool) : List Nat → List Nat
  | [] => []
  | x :: v => packBytes size isBig x ++ packList size isBig v

/-- Value of a little-endian byte string (least significant byte first). -/
def unpackLE : List Nat → Nat
  | [] => 0
  | b :: l => b + 256 * unpackLE l

/-- One element unpacked per the endianness flag. -/
def unpackBytes (isBig : Bool) (l : List Nat) : Nat :=
  if isBig then unpackLE l.reverse else unpackLE l

/-- `struct.unpack` of `count` consecutive elements of width `size`
starting at the head of `buf`. -/
def unpackList (size : Nat) (isBig : Bool) : Nat → List Nat → List Nat
  | 0, _ => []
  | c + 1, buf => unpackBytes isBig (buf.take size) :: unpackList size isBig c (buf.drop size)

/-- Decimal digit characters (ASCII codes) of `n`, most significant first;
`fuel`-structured so that the kernel can evaluate it.  Models `'%d' % n`
for a nonnegative `n`. -/
def decStrGo : Nat → Nat → List Nat
  | 0, _ => []
  | f + 1, n => if n < 10 then [48 + n] else decStrGo f (n / 10) ++ [48 + n % 10]

/-- `'%d' % n` as a list of ASCII codes. -/
def decStr (n : Nat) : List Nat := decStrGo (n + 1) n

/-- ASCII decimal digit test on a byte. -/
def isDigitByte (b : Nat) : Bool := decide (48 ≤ b) && decide (b ≤ 57)

/-- Numeric value of a list of ASCII decimal digits, most significant first. -/
def valDigits (l : List Nat) : Nat := l.foldl (fun a b => a * 10 + (b - 48)) 0

/-- Digit core of a decimal numeral: succeeds exactly on a nonempty
all-digit string.  Used by `pyInt` after whitespace stripping and sign
handling. -/
def parseNat (l : List Nat) : Option Nat :=
  match l with
  | [] => none
  | _ => if l.all isDigitByte then some (valDigits l) else none

/-- ASCII whitespace bytes that Python `int()` strips around a numeral:
tab, LF, VT, FF, CR and space. -/
def isSpaceByte (b : Nat) : Bool := decide (b = 32) || (decide (9 ≤ b) && decide (b ≤ 13))

/-- Strip ASCII whitespace from both ends of a byte string. -/
def stripWS (l : List Nat) : List Nat :=
  ((l.dropWhile isSpaceByte).reverse.dropWhile isSpaceByte).reverse

/-- Sign-and-digits part of Python `int()`: one optional `+`/`-` byte
directly adjacent to a nonempty run of decimal digits. -/
def pyIntCore (l : List Nat) : Option Int :=
  match l with
  | [] => none
  | b :: rest =>
    if b = 43 then (parseNat rest).map (fun n => (n : Int))
    else if b = 45 then (parseNat rest).map (fun n => -(n : Int))
    else (parseNat (b :: rest)).map (fun n => (n : Int))

/-- Python `int()` applied to a byte string: surrounding ASCII whitespace
is stripped, then one optional sign directly followed by a nonempty run
of decimal digits is accepted (whitespace between sign and digits is
not), so e.g. `int(b'+8') = 8`, `int(b' 8 ') = 8`, `int(b'-1') = -1`,
while `b''`, `b'+'` and `b'+ 8'` raise `ValueError`.  Underscore
grouping of digits is accepted by `int()` only on Python >= 3.6; the
source also targets Python 2 (see its `sys.version` branches), where
such numerals raise, so that version-dependent extension is not
modelled. -/
def pyInt (l : List Nat) : Option Int := pyIntCore (stripWS l)

/-- `util.to_ieee_block(data, datatype, is_big_endian)`.

The source computes `data_length = len(data)` (the **element count**),
`header = '%d' % data_length`, and returns
`'#%d%d' % (len(header), data_length)` followed by
`struct.pack('<Nd', *data)`.  `size` is `struct.calcsize(datatype)`. -/
def to_ieee_block (data : List Nat) (size : Nat) (isBig : Bool) : List Nat :=
  35 :: decStr (decStr data.length).length ++ decStr data.length ++ packList size isBig data

/-- The `header_length` computation of `from_ieee_block`: `int` of the
one-byte slice after the `#`, with `ValueError` (missing or non-digit
byte) caught and turned into `0`. -/
def headerDigitOf (ob : Option Nat) : Nat :=
  match ob with
  | some b => if isDigitByte b then b - 48 else 0
  | none => 0

/-- `util.from_ieee_block(block, datatype, is_big_endian)`.

`none` models a raised exception (`ValueError`, including the ones the
source converts from `struct.error`).  Faithful points:
* `begin` is the first index of `b'#'` (35); absence raises.
* `header_length = int(block[begin+1:begin+2])`, with `ValueError`
  caught and turned into `0` — a missing or non-digit byte gives `0`.
* definite branch (`header_length > 0`): `data_length` is parsed by
  Python `int()` from the next `header_length` bytes (the slice clamps at
  the end of the buffer; a failed parse propagates as an uncaught
  `ValueError`).  A negative parsed value makes the `'%d'`-formatted
  struct format string invalid, so `unpack_from` raises `struct.error`
  (converted to `ValueError`); otherwise `struct.unpack_from` reads
  `data_length` **elements** from `offset`, failing when fewer than
  `data_length * size` bytes remain.
* indefinite branch: `data_length = int((len(block) - offset - 1) /
  element_length)` with Python's truncating-toward-zero conversion,
  modelled by `Int.tdiv`; a negative count makes the struct format string
  invalid (failure), and `unpack_from` fails when the buffer from
  `offset` is shorter than `count * size`. -/
def from_ieee_block (block : List Nat) (size : Nat) (isBig : Bool) : Option (List Nat) :=
  match block.findIdx? (fun b => b == 35) with
  | none => none
  | some i =>
    let hdigit : Nat := headerDigitOf block[i + 1]?
    if 0 < hdigit then
      match pyInt ((block.drop (i + 2)).take hdigit) with
      | none => none
      | some n =>
        if n < 0 then none
        else if i + 2 + hdigit + n.toNat * size ≤ block.length then
          some (unpackList size isBig n.toNat (block.drop (i + 2 + hdigit)))
        else none
    else
      let avail : Int := (block.length : Int) - (i + 2) - 1
      let cnt : Int := Int.tdiv avail size
      if 0 ≤ cnt ∧ i + 2 + cnt.toNat * size ≤ block.length then
        some (unpackList size isBig cnt.toNat (block.drop (i + 2)))
      else none

/-- Element width used by `parse_binary`: 4 bytes when `is_single`. -/
def elemSize (isSingle : Bool) : Nat := if isSingle then 4 else 8

/-- `util.parse_binary(bytes_data, is_big_endian, is_single)` (legacy decode).

`none` models a raised exception.  Faithful points:
* the buffer is cut at the first `b'#'`; absence raises.
* `data[1:2].decode('ascii')` raises on a byte ≥ 128; the definite branch
  is taken exactly when that byte is a digit `1`–`9`.
* definite branch: `data_length = int(data[2:2+d])` under Python `int()`
  semantics (failure propagates).  A negative `data_length` makes
  `data_length // size` negative (Python floor division), so the struct
  format string is invalid and unpacking raises whatever the payload
  slice is.  Otherwise the payload slice `data[2+d : 2+d+data_length]`
  clamps at the end of the buffer, and `struct.unpack('<Nd', payload)`
  with `N = data_length // size` requires the slice length to equal
  `N * size` exactly.
* indefinite branch: `data[-1:].decode('ascii')` raises on a final byte
  ≥ 128; one trailing newline is stripped; then the whole remainder is
  unpacked, requiring its length to be a multiple of `size`. -/
def parse_binary (bytesData : List Nat) (isBig : Bool) (isSingle : Bool) : Option (List Nat) :=
  match bytesData.findIdx? (fun b => b == 35) with
  | none => none
  | some i =>
    let data := bytesData.drop i
    let sz := elemSize isSingle
    let indefinite : Option (List Nat) :=
      match (data.drop 2).getLast? with
      | some lb =>
        if 128 ≤ lb then none
        else
          let d3 := if lb == 10 then (data.drop 2).dropLast else data.drop 2
          if d3.length = d3.length / sz * sz then
            some (unpackList sz isBig (d3.length / sz) d3)
          else none
      | none => some (unpackList sz isBig 0 [])
    match data[1]? with
    | some b =>
      if 128 ≤ b then none
      else if 49 ≤ b ∧ b ≤ 57 then
        match pyInt ((data.drop 2).take (b - 48)) with
        | none => none
        | some n =>
          if n < 0 then none
          else
            let payload := (data.drop (2 + (b - 48))).take n.toNat
            if payload.length = n.toNat / sz * sz then
              some (unpackList sz isBig (n.toNat / sz) payload)
            else none
      else indefinite
    | none => indefinite

/-! ## Basic facts about packing and decimal headers -/

theorem packLE_length (s x : Nat) : (packLE s x).length = s := by
  induction s generalizing x with
  | zero => rfl
  | succ s ih => simp [packLE, ih]

theorem packBytes_length (s : Nat) (e : Bool) (x : Nat) : (packBytes s e x).length = s := by
  cases e <;> simp [packBytes, packLE_length]

theorem packList_length (s : Nat) (e : Bool) (v : List Nat) :
    (packList s e v).length = v.length * s := by
  induction v with
  | nil => simp [packList]
  | cons x v ih => simp [packList, packBytes_length, ih, Nat.succ_mul, Nat.add_comm]

theorem unpackLE_packLE (s x : Nat) : unpackLE (packLE s x) = x % 256 ^ s := by
  induction s generalizing x with
  | zero => simp [packLE, unpackLE, Nat.mod_one]
  | succ s ih =>
    have h : (256 : Nat) ^ (s + 1) = 256 * 256 ^ s := by ring
    simp [packLE, unpackLE, ih, h, Nat.mod_mul]

theorem unpackBytes_packBytes (s : Nat) (e : Bool) (x : Nat) (hx : x < 256 ^ s) :
    unpackBytes e (packBytes s e x) = x := by
  have h := unpackLE_packLE s x
  rw [Nat.mod_eq_of_lt hx] at h
  cases e <;> simp [packBytes, unpackBytes, h]

theorem unpackList_packList (s : Nat) (e : Bool) (v : List Nat) (rest : List Nat)
    (hv : ∀ x ∈ v, x < 256 ^ s) :
    unpackList s e v.length (packList s e v ++ rest) = v := by
  induction v generalizing rest with
  | nil => rfl
  | cons x v ih =>
    have hx : x < 256 ^ s := hv x (by simp)
    have hlen : (packBytes s e x).length = s := packBytes_length s e x
    simp only [packList, List.length_cons, unpackList, List.append_assoc]
    rw [List.take_left' hlen, List.drop_left' hlen, unpackBytes_packBytes s e x hx,
      ih _ (fun y hy => hv y (by simp [hy]))]

theorem valDigits_append (l : List Nat) (d : Nat) :
    valDigits (l ++ [d]) = valDigits l * 10 + (d - 48) := by
  simp [valDigits, List.foldl_append]

theorem decStrGo_all_digits (f : Nat) : ∀ n, n < 10 ^ f → (decStrGo f n).all isDigitByte := by
  induction f with
  | zero => intro n h; simp [decStrGo]
  | succ f ih =>
    intro n h
    by_cases h10 : n < 10
    · simp [decStrGo, h10, isDigitByte]
      omega
    · have hdiv : n / 10 < 10 ^ f := by
        rw [Nat.div_lt_iff_lt_mul (by norm_num)]
        calc n < 10 ^ (f + 1) := h
        _ = 10 ^ f * 10 := by ring
      have hmod : n % 10 < 10 := Nat.mod_lt n (by norm_num)
      simp only [decStrGo, h10, if_false, List.all_append, Bool.and_eq_true]
      refine ⟨ih (n / 10) hdiv, ?_⟩
      simp only [List.all_cons, List.all_nil, Bool.and_true, isDigitByte,
        Bool.and_eq_true, decide_eq_true_eq]
      omega

theorem valDigits_decStrGo (f : Nat) : ∀ n, n < 10 ^ f → valDigits (decStrGo f n) = n := by
  induction f with
  | zero => intro n h; interval_cases n; rfl
  | succ f ih =>
    intro n h
    by_cases h10 : n < 10
    · simp [decStrGo, h10, valDigits]
    · have hdiv : n / 10 < 10 ^ f := by
        rw [Nat.div_lt_iff_lt_mul (by norm_num)]
        calc n < 10 ^ (f + 1) := h
        _ = 10 ^ f * 10 := by ring
      simp only [decStrGo, h10, if_false, valDigits_append, ih (n / 10) hdiv]
      have hmod : n % 10 < 10 := Nat.mod_lt n (by norm_num)
      omega

theorem self_lt_ten_pow (n : Nat) : n < 10 ^ (n + 1) := by
  calc n < 10 ^ n := Nat.lt_pow_self (by norm_num) n
  _ ≤ 10 ^ (n + 1) := Nat.pow_le_pow_right (by norm_num) (Nat.le_succ n)

theorem decStr_all_digits (n : Nat) : (decStr n).all isDigitByte :=
  decStrGo_all_digits (n + 1) n (self_lt_ten_pow n)

theorem valDigits_decStr (n : Nat) : valDigits (decStr n) = n :=
  valDigits_decStrGo (n + 1) n (self_lt_ten_pow n)

theorem decStrGo_ne_nil (f n : Nat) (hf : 0 < f) : decStrGo f n ≠ [] := by
  cases f with
  | zero => omega
  | succ f =>
    by_cases h10 : n < 10 <;> simp [decStrGo, h10]

theorem decStr_ne_nil (n : Nat) : decStr n ≠ [] := decStrGo_ne_nil (n + 1) n (Nat.succ_pos n)

theorem parseNat_decStr (n : Nat) : parseNat (decStr n) = some n := by
  have hne := decStr_ne_nil n
  have hall := decStr_all_digits n
  have hval := valDigits_decStr n
  unfold parseNat
  cases hd : decStr n with
  | nil => exact absurd hd hne
  | cons a l => rw [hd] at hall hval; simp [hall, hval]

/-- Equation for `parseNat` on a nonempty list. -/
theorem parseNat_cons (b : Nat) (rest : List Nat) :
    parseNat (b :: rest)
      = (if (b :: rest).all isDigitByte then some (valDigits (b :: rest)) else none) := rfl

/-- Equation for `pyIntCore` on a nonempty list. -/
theorem pyIntCore_cons (b : Nat) (rest : List Nat) :
    pyIntCore (b :: rest)
      = (if b = 43 then (parseNat rest).map (fun n => (n : Int))
         else if b = 45 then (parseNat rest).map (fun n => -(n : Int))
         else (parseNat (b :: rest)).map (fun n => (n : Int))) := rfl

theorem isSpaceByte_eq_false_of_digit (b : Nat) (h : isDigitByte b = true) :
    isSpaceByte b = false := by
  simp only [isDigitByte, Bool.and_eq_true, decide_eq_true_eq] at h
  simp only [isSpaceByte]
  simp only [Bool.or_eq_false_iff, Bool.and_eq_false_iff, decide_eq_false_iff_not]
  omega

theorem dropWhile_isSpace_of_all_digits (l : List Nat) (h : l.all isDigitByte = true) :
    l.dropWhile isSpaceByte = l := by
  cases l with
  | nil => rfl
  | cons b rest =>
    simp only [List.all_cons, Bool.and_eq_true] at h
    rw [List.dropWhile_cons, if_neg]
    simp [isSpaceByte_eq_false_of_digit b h.1]

/-- Whitespace stripping leaves an all-digit string unchanged. -/
theorem stripWS_of_all_digits (l : List Nat) (h : l.all isDigitByte = true) :
    stripWS l = l := by
  have h2 : l.reverse.all isDigitByte = true := by simpa using h
  rw [stripWS, dropWhile_isSpace_of_all_digits l h,
    dropWhile_isSpace_of_all_digits l.reverse h2, List.reverse_reverse]

/-- `int()` on a nonempty all-digit string returns its value. -/
theorem pyInt_of_digits (l : List Nat) (hne : l ≠ []) (h : l.all isDigitByte = true) :
    pyInt l = some ((valDigits l : Nat) : Int) := by
  show pyIntCore (stripWS l) = some ((valDigits l : Nat) : Int)
  rw [stripWS_of_all_digits l h]
  cases l with
  | nil => exact absurd rfl hne
  | cons b rest =>
    rw [pyIntCore_cons]
    have hb : isDigitByte b = true := by
      simp only [List.all_cons, Bool.and_eq_true] at h
      exact h.1
    have hb2 : 48 ≤ b ∧ b ≤ 57 := by
      simpa [isDigitByte] using hb
    rw [if_neg (by omega), if_neg (by omega)]
    rw [parseNat_cons, if_pos h]
    rfl

/-- `int()` on a `'%d'`-rendered numeral recovers the number. -/
theorem pyInt_decStr (n : Nat) : pyInt (decStr n) = some ((n : Nat) : Int) := by
  have h := pyInt_of_digits (decStr n) (decStr_ne_nil n) (decStr_all_digits n)
  rw [valDigits_decStr] at h
  exact h

theorem decStrGo_length_le (f : Nat) :
    ∀ n k, n < 10 ^ f → n < 10 ^ k → 1 ≤ k → (decStrGo f n).length ≤ k := by
  induction f with
  | zero => intro n k _ _ _; simp [decStrGo]
  | succ f ih =>
    intro n k hf hk hk1
    by_cases h10 : n < 10
    · simpa [decStrGo, h10] using hk1
    · have hdivf : n / 10 < 10 ^ f := by
        rw [Nat.div_lt_iff_lt_mul (by norm_num)]
        calc n < 10 ^ (f + 1) := hf
        _ = 10 ^ f * 10 := by ring
      have hk2 : 2 ≤ k := by
        by_contra hcon
        have : k = 1 := by omega
        subst this
        simp at hk
        omega
      have hdivk : n / 10 < 10 ^ (k - 1) := by
        rw [Nat.div_lt_iff_lt_mul (by norm_num)]
        calc n < 10 ^ k := hk
        _ = 10 ^ (k - 1) * 10 := by
          rw [← Nat.pow_succ]
          congr 1
          omega
      have := ih (n / 10) (k - 1) hdivf hdivk (by omega)
      simp only [decStrGo, h10, if_false, List.length_append, List.length_cons,
        List.length_nil]
      omega

theorem decStr_length_le (n k : Nat) (hk : n < 10 ^ k) (hk1 : 1 ≤ k) :
    (decStr n).length ≤ k :=
  decStrGo_length_le (n + 1) n k (self_lt_ten_pow n) hk hk1

theorem decStr_single (d : Nat) (hd : d < 10) : decStr d = [48 + d] := by
  simp [decStr, decStrGo, hd]

theorem valDigits_lt_aux (l : List Nat) :
    ∀ a, l.all isDigitByte → List.foldl (fun x b => x * 10 + (b - 48)) a l < (a + 1) * 10 ^ l.length := by
  induction l with
  | nil => intro a _; simp
  | cons b l ih =>
    intro a hall
    simp only [List.all_cons, Bool.and_eq_true] at hall
    have hb : b - 48 ≤ 9 := by
      have := hall.1
      simp [isDigitByte] at this
      omega
    have h1 := ih (a * 10 + (b - 48)) hall.2
    have h2 : (a * 10 + (b - 48) + 1) * 10 ^ l.length ≤ (a + 1) * 10 ^ (b :: l).length := by
      simp only [List.length_cons, Nat.pow_succ]
      have : a * 10 + (b - 48) + 1 ≤ (a + 1) * 10 := by omega
      calc (a * 10 + (b - 48) + 1) * 10 ^ l.length ≤ (a + 1) * 10 * 10 ^ l.length :=
            Nat.mul_le_mul_right _ this
      _ = (a + 1) * (10 ^ l.length * 10) := by ring
    calc List.foldl (fun x b => x * 10 + (b - 48)) a (b :: l)
        = List.foldl (fun x b => x * 10 + (b - 48)) (a * 10 + (b - 48)) l := rfl
    _ < (a * 10 + (b - 48) + 1) * 10 ^ l.length := h1
    _ ≤ (a + 1) * 10 ^ (b :: l).length := h2

theorem valDigits_lt (l : List Nat) (hall : l.all isDigitByte) :
    valDigits l < 10 ^ l.length := by
  have := valDigits_lt_aux l 0 hall
  simpa [valDigits] using this

theorem decStr_length_ge (n k : Nat) (hk : 10 ^ k ≤ n) : k + 1 ≤ (decStr n).length := by
  by_contra hcon
  have hlen : (decStr n).length ≤ k := by omega
  have := valDigits_lt (decStr n) (decStr_all_digits n)
  rw [valDigits_decStr n] at this
  have : n < 10 ^ k := lt_of_lt_of_le this (Nat.pow_le_pow_right (by norm_num) hlen)
  omega

theorem decStr_length_pos (n : Nat) : 1 ≤ (decStr n).length := by
  cases hdc : decStr n with
  | nil => exact absurd hdc (decStr_ne_nil n)
  | cons a l => simp

theorem findIdx_hash_cons (tail : List Nat) :
    (35 :: tail).findIdx? (fun x => x == 35) = some 0 := by
  rw [List.findIdx?_cons]
  simp

/-- Shape of an encoded block, by definition. -/
theorem to_ieee_block_shape (v : List Nat) (size : Nat) (e : Bool) :
    to_ieee_block v size e
      = ((35 :: decStr (decStr v.length).length) ++ decStr v.length) ++ packList size e v :=
  rfl

/-- Behaviour of `from_ieee_block` when the byte after the marker is a
digit `1`-`9` (the definite-length branch). -/
theorem from_ieee_block_eq_definite (block : List Nat) (size : Nat) (e : Bool) (i b : Nat)
    (hf : block.findIdx? (fun x => x == 35) = some i)
    (hb : block[i + 1]? = some b) (h49 : 49 ≤ b) (h57 : b ≤ 57) :
    from_ieee_block block size e
      = match pyInt ((block.drop (i + 2)).take (b - 48)) with
        | none => none
        | some n =>
          if n < 0 then none
          else if i + 2 + (b - 48) + n.toNat * size ≤ block.length then
            some (unpackList size e n.toNat (block.drop (i + 2 + (b - 48))))
          else none := by
  have hdig : isDigitByte b = true := by simp [isDigitByte]; omega
  simp only [from_ieee_block, hf, hb, headerDigitOf, hdig, if_true]
  rw [if_pos (show 0 < b - 48 by omega)]

/-- Behaviour of `from_ieee_block` when the header-length field reads as
`0` (byte after the marker missing, not a digit, or the digit `0`): the
indefinite-length branch. -/
theorem from_ieee_block_eq_indefinite (block : List Nat) (size : Nat) (e : Bool) (i : Nat)
    (hf : block.findIdx? (fun x => x == 35) = some i)
    (hd0 : headerDigitOf block[i + 1]? = 0) :
    from_ieee_block block size e
      = (if 0 ≤ Int.tdiv ((block.length : Int) - (i + 2) - 1) size ∧
            i + 2 + (Int.tdiv ((block.length : Int) - (i + 2) - 1) size).toNat * size
              ≤ block.length
         then some (unpackList size e
            (Int.tdiv ((block.length : Int) - (i + 2) - 1) size).toNat (block.drop (i + 2)))
         else none) := by
  simp only [from_ieee_block, hf, hd0]
  rw [if_neg (by omega)]

/-- Claim C1, amended.  Round-trip of the codec: for every sequence of
fewer than `10^9` elements (so that the element-count numeral fits the
one-digit header-length field) whose elements are bit patterns of the
element format (`x < 256 ^ size`, i.e. the sequence is taken up to the
precision of the format), decoding an encoded block returns the original
sequence, for either endianness. -/
theorem claim_C1_roundtrip (v : List Nat) (size : Nat) (e : Bool)
    (hlen : v.length < 10 ^ 9) (hv : ∀ x ∈ v, x < 256 ^ size) :
    from_ieee_block (to_ieee_block v size e) size e = some v := by
  set n := v.length with hn
  set hl := (decStr n).length with hhl
  have hl1 : 1 ≤ hl := decStr_length_pos n
  have hl9 : hl ≤ 9 := decStr_length_le n 9 hlen (by norm_num)
  have hsingle : decStr hl = [48 + hl] := decStr_single hl (by omega)
  have hblock : to_ieee_block v size e
      = [35, 48 + hl] ++ (decStr n ++ packList size e v) := by
    simp [to_ieee_block, ← hn, ← hhl, hsingle]
  rw [hblock]
  have hfind : ([35, 48 + hl] ++ (decStr n ++ packList size e v)).findIdx?
      (fun b => b == 35) = some 0 := by
    simp [List.findIdx?_cons]
  have hget : ([35, 48 + hl] ++ (decStr n ++ packList size e v))[1]? = some (48 + hl) := by
    simp
  have hdigit : isDigitByte (48 + hl) = true := by
    simp [isDigitByte]; omega
  have hdrop2 : ([35, 48 + hl] ++ (decStr n ++ packList size e v)).drop 2
      = decStr n ++ packList size e v := List.drop_left' (by simp)
  have htake : (decStr n ++ packList size e v).take hl = decStr n :=
    List.take_left' hhl.symm
  have hlenblock : ([35, 48 + hl] ++ (decStr n ++ packList size e v)).length
      = 2 + hl + n * size := by
    simp [packList_length, ← hhl, ← hn]
    omega
  have hdropoff : ([35, 48 + hl] ++ (decStr n ++ packList size e v)).drop (0 + 2 + hl)
      = packList size e v := by
    rw [show [35, 48 + hl] ++ (decStr n ++ packList size e v)
        = ([35, 48 + hl] ++ decStr n) ++ packList size e v by simp]
    exact List.drop_left' (by simp [← hhl]; omega)
  simp only [from_ieee_block, hfind, hget, headerDigitOf, hdigit, if_true, hdrop2,
    Nat.add_sub_cancel_left, htake, pyInt_decStr]
  rw [if_pos (show 0 < hl by omega)]
  rw [if_neg (show ¬(((n : Nat) : Int) < 0) by omega)]
  rw [Int.toNat_natCast]
  rw [if_pos (le_of_eq (by rw [hlenblock]; try omega))]
  rw [hdropoff]
  have hup := unpackList_packList size e v [] hv
  rw [List.append_nil] at hup
  rw [← hn] at hup
  rw [hup]

/-- Witness for C1's amended theorem at a concrete input. -/
theorem claim_C1_witness :
    from_ieee_block (to_ieee_block [1, 2] 4 false) 4 false = some [1, 2] :=
  claim_C1_roundtrip [1, 2] 4 false (by norm_num) (by decide)

/-- Decoding any buffer of the form `#10...`: the decoder reads
header-length `1`, parses the single byte `0` as element count `0`, and
returns the empty sequence. -/
theorem from_ieee_block_header_one_zero (R : List Nat) :
    from_ieee_block (35 :: 49 :: 48 :: R) 8 false = some [] := by
  have hfind := findIdx_hash_cons (49 :: 48 :: R)
  have hget : (35 :: 49 :: 48 :: R)[0 + 1]? = some 49 := rfl
  have heq := from_ieee_block_eq_definite (35 :: 49 :: 48 :: R) 8 false 0 49 hfind hget
    (by norm_num) (by norm_num)
  have htake : ((35 :: 49 :: 48 :: R).drop (0 + 2)).take (49 - 48) = [48] := rfl
  rw [htake] at heq
  have hparse : pyInt [48] = some 0 := rfl
  rw [hparse] at heq
  simp only [Int.toNat_zero, Nat.zero_mul] at heq
  rw [if_neg (by decide : ¬((0 : Int) < 0))] at heq
  rw [if_pos (by simp only [List.length_cons]; omega)] at heq
  rw [heq]
  rfl

/-- Encoding `10^9` elements produces the header bytes `#10` followed by
the ten-digit element count: the header-length field itself has spilled
to two bytes. -/
theorem to_ieee_block_giga_shape :
    to_ieee_block (List.replicate (10 ^ 9) 0) 8 false
      = 35 :: 49 :: 48 :: (decStr (10 ^ 9) ++ packList 8 false (List.replicate (10 ^ 9) 0)) := by
  have hlen : (List.replicate (10 ^ 9) (0 : Nat)).length = 10 ^ 9 :=
    List.length_replicate _ _
  have hd9 : (decStr (10 ^ 9)).length = 10 :=
    le_antisymm (decStr_length_le (10 ^ 9) 10 (by norm_num) (by norm_num))
      (decStr_length_ge (10 ^ 9) 9 le_rfl)
  have hd10 : decStr 10 = [49, 48] := by decide
  have hbase := to_ieee_block_shape (List.replicate (10 ^ 9) 0) 8 false
  rw [hlen, hd9, hd10] at hbase
  rw [hbase]
  simp only [List.cons_append, List.nil_append, List.append_assoc]

/-- Counterexample to C1 as stated: at `10^9` elements the element-count
numeral has ten digits, the `%d`-formatted header-length field spills to
two bytes (`"10"`), and the decoder misreads the header (it reads
header-length `1` and element count `0`), so the round-trip does not
return the original sequence. -/
theorem claim_C1_counterexample :
    from_ieee_block (to_ieee_block (List.replicate (10 ^ 9) 0) 8 false) 8 false
      ≠ some (List.replicate (10 ^ 9) 0) := by
  rw [to_ieee_block_giga_shape, from_ieee_block_header_one_zero]
  intro hcon
  have h2 := congrArg (fun o => (Option.getD o []).length) hcon
  simp only [Option.getD_some, List.length_nil, List.length_replicate] at h2
  norm_num at h2

theorem take_three_cons (a b c : Nat) (R : List Nat) :
    (a :: b :: c :: R).take 3 = [a, b, c] := by
  simp

theorem length_three_cons (a b c : Nat) (R : List Nat) :
    (a :: b :: c :: R).length = 3 + R.length := by
  simp only [List.length_cons]
  omega

/-- The element-count numeral of `10^9` has ten digits. -/
theorem decStr_giga_length : (decStr (10 ^ 9)).length = 10 :=
  le_antisymm (decStr_length_le (10 ^ 9) 10 (by norm_num) (by norm_num))
    (decStr_length_ge (10 ^ 9) 9 le_rfl)

/-- Claim C2, code bug.  Decoding `#0` followed by exactly `k` packed
doubles (here `k = 1`, eight zero bytes) yields `k - 1 = 0` values, not
`k`: the indefinite branch computes
`data_length = int((len(block) - offset - 1) / element_length)`,
subtracting one byte although its own comment says to use the length of
the whole block; only with one extra trailing byte does it return the
`k` values, as the second conjunct shows. -/
theorem claim_C2_indefinite_off_by_one :
    from_ieee_block ([35, 48] ++ List.replicate 8 0) 8 false = some []
      ∧ from_ieee_block ([35, 48] ++ List.replicate 8 0 ++ [0]) 8 false = some [0] := by
  decide

/-- Counterexample to C3 as stated: for two packed doubles the payload is
16 bytes, so the claimed length `1 + 1 + len(str(16)) + 16 = 20` differs
from the actual buffer length 19 — the header digits spell the element
count `2`, not the payload byte count `16`. -/
theorem claim_C3_counterexample :
    (to_ieee_block [0, 0] 8 false).length
      ≠ 1 + 1 + (decStr (packList 8 false [0, 0]).length).length
          + (packList 8 false [0, 0]).length := by
  decide

/-- Claim C3, amended.  For every sequence of fewer than `10^9` elements
the encoded buffer has length
`1 + 1 + len('%d' % len(v)) + len(payload)`, and the digit field after
the two marker bytes spells the **element count** `len(v)` (not the
payload byte count). -/
theorem claim_C3_header_arithmetic (v : List Nat) (size : Nat) (e : Bool)
    (hlen : v.length < 10 ^ 9) :
    (to_ieee_block v size e).length
        = 1 + 1 + (decStr v.length).length + (packList size e v).length
      ∧ ((to_ieee_block v size e).drop 2).take (decStr v.length).length
        = decStr v.length := by
  have hl9 : (decStr v.length).length ≤ 9 := decStr_length_le _ 9 hlen (by norm_num)
  have hl1 := decStr_length_pos v.length
  have hsingle : decStr (decStr v.length).length = [48 + (decStr v.length).length] :=
    decStr_single _ (by omega)
  constructor
  · rw [to_ieee_block_shape, hsingle]
    simp only [List.length_append, List.length_cons, List.length_nil]
  · rw [to_ieee_block_shape, hsingle]
    have hassoc : (((35 : Nat) :: [48 + (decStr v.length).length]) ++ decStr v.length)
          ++ packList size e v
        = (35 :: [48 + (decStr v.length).length]) ++ (decStr v.length ++ packList size e v) := by
      simp [List.append_assoc]
    rw [hassoc, List.drop_left' (by simp), List.take_left' rfl]

/-- Witness for C3's amended theorem at a concrete input. -/
theorem claim_C3_witness :
    (to_ieee_block [0, 0] 8 false).length
        = 1 + 1 + (decStr (List.length [0, 0])).length + (packList 8 false [0, 0]).length
      ∧ ((to_ieee_block [0, 0] 8 false).drop 2).take (decStr (List.length [0, 0])).length
        = decStr (List.length [0, 0]) :=
  claim_C3_header_arithmetic [0, 0] 8 false (by norm_num)

/-- Claim C4, amended.  The encoder has no overflow check and never
fails: for sequences of fewer than `10^9` elements it emits a
well-formed block whose header-length byte is the single digit
`len('%d' % len(v))`, and for `10^9` or more elements it still returns a
buffer, silently letting the header-length field spill to two or more
digits instead of rejecting the input. -/
theorem claim_C4_no_overflow_check (v : List Nat) (size : Nat) (e : Bool) :
    (v.length < 10 ^ 9 →
      to_ieee_block v size e
        = 35 :: ((48 + (decStr v.length).length) :: (decStr v.length ++ packList size e v)))
      ∧ (10 ^ 9 ≤ v.length → 2 ≤ (decStr (decStr v.length).length).length) := by
  constructor
  · intro h
    have hl9 : (decStr v.length).length ≤ 9 := decStr_length_le _ 9 h (by norm_num)
    have hl1 := decStr_length_pos v.length
    rw [to_ieee_block_shape, decStr_single _ (by omega)]
    simp [List.append_assoc]
  · intro h
    have h10 : 10 ≤ (decStr v.length).length := decStr_length_ge _ 9 h
    have h2 := decStr_length_ge (decStr v.length).length 1 (by omega)
    omega

/-- Witness for C4's amended theorem at a concrete input. -/
theorem claim_C4_witness :
    to_ieee_block [0] 4 false
      = 35 :: ((48 + (decStr (List.length [0])).length)
          :: (decStr (List.length [0]) ++ packList 4 false [0])) :=
  (claim_C4_no_overflow_check [0] 4 false).1 (by norm_num)

/-- Counterexample to C4 as stated: encoding `10^9` doubles does not
fail — it returns a buffer beginning `#10` (a two-byte header-length
field, out of the format's contract) of full length `13 + 8 * 10^9`. -/
theorem claim_C4_counterexample :
    (to_ieee_block (List.replicate (10 ^ 9) 0) 8 false).take 3 = [35, 49, 48]
      ∧ (to_ieee_block (List.replicate (10 ^ 9) 0) 8 false).length
        = 1 + 2 + 10 + 8 * 10 ^ 9 := by
  constructor
  · rw [to_ieee_block_giga_shape]
    exact take_three_cons 35 49 48 _
  · rw [to_ieee_block_giga_shape, length_three_cons, List.length_append, packList_length,
      List.length_replicate, decStr_giga_length]
    norm_num

theorem tdiv_sub_one_cast (L i size : Nat) (h : i + 2 ≤ L) (hs : 2 ≤ size) :
    Int.tdiv ((L : Int) - (i + 2) - 1) size = ((L - (i + 2) - 1) / size : Nat) := by
  rcases Nat.eq_or_lt_of_le h with heq | hlt
  · have h1 : ((L : Int) - (i + 2) - 1) = -1 := by omega
    have h2 : L - (i + 2) - 1 = 0 := by omega
    rw [h1, h2]
    have h3 : Int.tdiv (-1) size = -Int.tdiv 1 size := by
      rw [show (-1 : Int) = -(1 : Int) from rfl, Int.neg_tdiv]
    have h4 : Int.tdiv ((1 : Nat) : Int) ((size : Nat) : Int) = ((1 / size : Nat) : Int) :=
      (Int.ofNat_tdiv 1 size).symm
    have h5 : (1 : Nat) / size = 0 := Nat.div_eq_of_lt (by omega)
    simp only [Nat.cast_one] at h4
    rw [h3, h4, h5]
    simp
  · have hm : ((L : Int) - (i + 2) - 1) = ((L - (i + 2) - 1 : Nat) : Int) := by omega
    rw [hm, ← Int.ofNat_tdiv]

theorem indefinite_success (block : List Nat) (size : Nat) (e : Bool) (i : Nat)
    (hs : 2 ≤ size)
    (hf : block.findIdx? (fun x => x == 35) = some i)
    (hd0 : headerDigitOf block[i + 1]? = 0)
    (hlen : i + 2 ≤ block.length) :
    from_ieee_block block size e
      = some (unpackList size e ((block.length - (i + 2) - 1) / size) (block.drop (i + 2))) := by
  rw [from_ieee_block_eq_indefinite block size e i hf hd0,
    tdiv_sub_one_cast block.length i size hlen hs]
  rw [if_pos ⟨Int.natCast_nonneg _, by
    rw [Int.toNat_natCast]
    have hd := Nat.div_mul_le_self (block.length - (i + 2) - 1) size
    omega⟩]
  rw [Int.toNat_natCast]

/-- Claim C9.  When the byte right after the `#` marker exists and is not
an ASCII digit, the primary decode does not fail: the header-length field
is treated as `0` and the buffer is decoded as an indefinite-length block
starting right after that byte, with the element count
`(len - offset - 1) / size` truncated. -/
theorem claim_C9_nondigit_header (block : List Nat) (size : Nat) (e : Bool) (i b : Nat)
    (hs : 2 ≤ size)
    (hf : block.findIdx? (fun x => x == 35) = some i)
    (hb : block[i + 1]? = some b)
    (hnd : isDigitByte b = false) :
    from_ieee_block block size e
      = some (unpackList size e ((block.length - (i + 2) - 1) / size) (block.drop (i + 2))) := by
  have hd0 : headerDigitOf block[i + 1]? = 0 := by
    rw [hb]
    simp [headerDigitOf, hnd]
  have hlen : i + 1 < block.length := by
    rcases List.getElem?_eq_some.mp hb with ⟨h, _⟩
    exact h
  exact indefinite_success block size e i hs hf hd0 (by omega)

theorem claim_C9_witness :
    from_ieee_block [35, 65, 1, 2, 3, 4, 5] 4 false = some [67305985] := by
  have h := claim_C9_nondigit_header [35, 65, 1, 2, 3, 4, 5] 4 false 0 65
    (by norm_num) (by decide) (by decide) (by decide)
  exact h.trans (by decide)

theorem elemSize_pos (s : Bool) : 0 < elemSize s := by
  cases s <;> simp [elemSize]

theorem self_eq_div_mul_iff_dvd (n s : Nat) (hs : 0 < s) :
    n = n / s * s ↔ s ∣ n := by
  constructor
  · intro h
    exact ⟨n / s, by rw [Nat.mul_comm]; exact h⟩
  · intro h
    rw [Nat.div_mul_cancel h]

/-- Equation for `headerDigitOf` on a present byte. -/
theorem headerDigitOf_some (b : Nat) :
    headerDigitOf (some b) = if isDigitByte b then b - 48 else 0 := rfl

/-- Amended failure condition for `from_ieee_block` (element width at
least 2): no `#` anywhere; or the buffer ends right at the `#`; or, in
the definite branch (digit `1`-`9` after `#`), the header digits fail to
parse under Python `int()` (which strips surrounding ASCII whitespace
and accepts one sign), or parse to a negative count (invalid struct
format), or fewer than `N * size` bytes remain after the header, `N`
being the parsed **element count**.  There is no divisibility condition,
and the indefinite branch never fails. -/
def fromIeeeFailCond (block : List Nat) (size : Nat) : Bool :=
  match block.findIdx? (fun x => x == 35) with
  | none => true
  | some i =>
    match block[i + 1]? with
    | none => true
    | some b =>
      if 49 ≤ b ∧ b ≤ 57 then
        match pyInt ((block.drop (i + 2)).take (b - 48)) with
        | none => true
        | some n =>
          if n < 0 then true
          else decide (block.length < i + 2 + (b - 48) + n.toNat * size)
      else false

/-- Amended failure condition for `parse_binary`: no `#` anywhere; or
the byte after `#` is non-ASCII; or, in the definite branch, the header
digits fail to parse under Python `int()`, or parse to a negative count
(invalid struct format), or the clamped payload slice's length differs
from `(N / size) * size`, `N` being the parsed **byte count**; or, in
the indefinite branch, the final byte is non-ASCII or the (once
newline-stripped) remainder length is not exactly `(len / size) * size`,
i.e. not a multiple of the element width. -/
def parseBinaryFailCond (bytesData : List Nat) (isSingle : Bool) : Bool :=
  match bytesData.findIdx? (fun x => x == 35) with
  | none => true
  | some i =>
    let data := bytesData.drop i
    let sz := elemSize isSingle
    match data[1]? with
    | none => false
    | some b =>
      if 128 ≤ b then true
      else if 49 ≤ b ∧ b ≤ 57 then
        match pyInt ((data.drop 2).take (b - 48)) with
        | none => true
        | some n =>
          if n < 0 then true
          else decide (((data.drop (2 + (b - 48))).take n.toNat).length ≠ n.toNat / sz * sz)
      else
        match (data.drop 2).getLast? with
        | none => false
        | some lb =>
          if 128 ≤ lb then true
          else
            let d3 := if lb == 10 then (data.drop 2).dropLast else data.drop 2
            decide (d3.length ≠ d3.length / sz * sz)

/-- Claim C5, amended: exact failure characterisation of both decoders,
plus the reading of the legacy length condition as divisibility. -/
theorem claim_C5_failure_characterization (block bytesData : List Nat) (size : Nat)
    (e big sing : Bool) (hs2 : 2 ≤ size) :
    (from_ieee_block block size e = none ↔ fromIeeeFailCond block size = true)
      ∧ (parse_binary bytesData big sing = none ↔ parseBinaryFailCond bytesData sing = true)
      ∧ (∀ m : Nat, m = m / elemSize sing * elemSize sing ↔ elemSize sing ∣ m) := by
  refine ⟨?_, ?_, fun m => self_eq_div_mul_iff_dvd m _ (elemSize_pos sing)⟩
  · cases hf : block.findIdx? (fun x => x == 35) with
    | none => simp [from_ieee_block, fromIeeeFailCond, hf]
    | some i =>
      cases hgb : block[i + 1]? with
      | none =>
        have hlen : block.length ≤ i + 1 := List.getElem?_eq_none_iff.mp hgb
        have hd0 : headerDigitOf block[i + 1]? = 0 := by rw [hgb]; rfl
        rw [from_ieee_block_eq_indefinite block size e i hf hd0]
        rw [if_neg (by
          rintro ⟨h1, h2⟩
          omega)]
        simp [fromIeeeFailCond, hf, hgb]
      | some b =>
        by_cases hd : 49 ≤ b ∧ b ≤ 57
        · rw [from_ieee_block_eq_definite block size e i b hf hgb hd.1 hd.2]
          cases hp : pyInt ((block.drop (i + 2)).take (b - 48)) with
          | none => simp [fromIeeeFailCond, hf, hgb, hd, hp]
          | some n =>
            simp only [fromIeeeFailCond, hf, hgb, if_pos hd, hp]
            try dsimp only
            by_cases hneg : n < 0
            · rw [if_pos hneg, if_pos hneg]
              exact iff_of_true rfl rfl
            · rw [if_neg hneg, if_neg hneg]
              split_ifs with hcond
              · exact iff_of_false (by simp)
                  (by intro hdec; have := of_decide_eq_true hdec; omega)
              · exact iff_of_true rfl (decide_eq_true (by omega))
        · have hd0 : headerDigitOf block[i + 1]? = 0 := by
            rw [hgb, headerDigitOf_some]
            split_ifs with hdig
            · simp only [isDigitByte, Bool.and_eq_true, decide_eq_true_eq] at hdig
              omega
            · rfl
          have hlen : i + 1 < block.length := by
            rcases List.getElem?_eq_some.mp hgb with ⟨h, _⟩
            exact h
          rw [indefinite_success block size e i hs2 hf hd0 (by omega)]
          simp [fromIeeeFailCond, hf, hgb, hd]
  · cases hf : bytesData.findIdx? (fun x => x == 35) with
    | none => simp [parse_binary, parseBinaryFailCond, hf]
    | some i =>
      simp only [parse_binary, parseBinaryFailCond, hf]
      cases hgb : (bytesData.drop i)[1]? with
      | none =>
        have hlen : (bytesData.drop i).length ≤ 1 := List.getElem?_eq_none_iff.mp hgb
        have hdrop : (bytesData.drop i).drop 2 = [] := List.drop_eq_nil_of_le (by omega)
        simp [hdrop]
      | some b =>
        simp only [hgb]
        try dsimp only
        by_cases h128 : 128 ≤ b
        · simp [h128]
        · simp only [if_neg h128]
          by_cases hd : 49 ≤ b ∧ b ≤ 57
          · simp only [if_pos hd]
            cases hp : pyInt (((bytesData.drop i).drop 2).take (b - 48)) with
            | none => simp
            | some n =>
              try dsimp only
              by_cases hneg : n < 0
              · rw [if_pos hneg, if_pos hneg]
                exact iff_of_true rfl rfl
              · rw [if_neg hneg, if_neg hneg]
                split_ifs with hcond
                · exact iff_of_false (by simp)
                    (by intro hdec; exact (of_decide_eq_true hdec) hcond)
                · exact iff_of_true rfl (decide_eq_true hcond)
          · simp only [if_neg hd]
            cases hlast : ((bytesData.drop i).drop 2).getLast? with
            | none => simp
            | some lb =>
              try dsimp only
              by_cases hl128 : 128 ≤ lb
              · simp [hl128]
              · simp only [if_neg hl128]
                by_cases hnl : (lb == 10) = true
                · simp only [if_pos hnl]
                  split_ifs with hcond
                  · exact iff_of_false (by simp)
                      (by intro hdec; exact (of_decide_eq_true hdec) hcond)
                  · exact iff_of_true rfl (decide_eq_true hcond)
                · simp only [if_neg hnl]
                  split_ifs with hcond
                  · exact iff_of_false (by simp)
                      (by intro hdec; exact (of_decide_eq_true hdec) hcond)
                  · exact iff_of_true rfl (decide_eq_true hcond)

/-- Counterexample to C5 as stated: the buffer `#18` + 8 payload bytes is
structurally valid by the claim's reading for element size 4 (the marker
is present, the declared `N = 8` is a multiple of 4, and 8 bytes remain
after the header), yet the primary decode fails: it reads `8` as an
element count and wants `8 * 4 = 32` payload bytes. -/
theorem claim_C5_counterexample :
    from_ieee_block [35, 49, 56, 0, 0, 0, 0, 0, 0, 0, 0] 4 false = none
      ∧ 8 % 4 = 0
      ∧ List.length [35, 49, 56, 0, 0, 0, 0, 0, 0, 0, 0] - 3 = 8 := by
  decide

/-- Witness for C5's amended theorem at concrete inputs. -/
theorem claim_C5_witness :
    (from_ieee_block [35, 49, 56, 0, 0, 0, 0, 0, 0, 0, 0] 4 false = none
        ↔ fromIeeeFailCond [35, 49, 56, 0, 0, 0, 0, 0, 0, 0, 0] 4 = true)
      ∧ (parse_binary [35, 48, 0, 0, 0, 0, 0, 0, 0, 0, 10] false false = none
        ↔ parseBinaryFailCond [35, 48, 0, 0, 0, 0, 0, 0, 0, 0, 10] false = true)
      ∧ (∀ m : Nat, m = m / elemSize false * elemSize false ↔ elemSize false ∣ m) :=
  claim_C5_failure_characterization [35, 49, 56, 0, 0, 0, 0, 0, 0, 0, 0]
    [35, 48, 0, 0, 0, 0, 0, 0, 0, 0, 10] 4 false false false (by norm_num)

/-- The header numeral may carry a sign under `int()`: `b'#2+8'` followed
by 64 payload bytes decodes to 8 doubles. -/
theorem from_ieee_block_signed_header_example :
    from_ieee_block ([35, 50, 43, 56] ++ List.replicate 64 0) 8 false
      = some (List.replicate 8 0) := by
  decide

/-- A negative header numeral makes the struct format invalid: `b'#2-8'`
followed by 64 payload bytes raises in both decoders. -/
theorem negative_header_count_example :
    from_ieee_block ([35, 50, 45, 56] ++ List.replicate 64 0) 8 false = none
      ∧ parse_binary ([35, 50, 45, 56] ++ List.replicate 64 0) false false = none := by
  decide

/-- Claim C8.  In the legacy decode, the trailing-newline strip happens
only in the indefinite-length branch and exactly once: when the branch
byte is not a digit `1`-`9` and the remaining data ends in a newline,
the payload is the remainder with its final byte removed (`dropLast`,
applied once even if another newline precedes); in the definite-length
branch the payload slice is taken purely by the declared length, with no
newline conditional at all. -/
theorem claim_C8_newline_strip (bytesData : List Nat) (big sing : Bool) (i : Nat)
    (hf : bytesData.findIdx? (fun x => x == 35) = some i) :
    (∀ b, (bytesData.drop i)[1]? = some b → b < 128 → ¬(49 ≤ b ∧ b ≤ 57) →
      ((bytesData.drop i).drop 2).getLast? = some 10 →
      parse_binary bytesData big sing
        = (if (((bytesData.drop i).drop 2).dropLast).length
              = (((bytesData.drop i).drop 2).dropLast).length / elemSize sing * elemSize sing
           then some (unpackList (elemSize sing) big
              ((((bytesData.drop i).drop 2).dropLast).length / elemSize sing)
              (((bytesData.drop i).drop 2).dropLast))
           else none))
      ∧ (∀ (b n : Nat), (bytesData.drop i)[1]? = some b → 49 ≤ b → b ≤ 57 →
          pyInt (((bytesData.drop i).drop 2).take (b - 48)) = some ((n : Nat) : Int) →
          parse_binary bytesData big sing
            = (if (((bytesData.drop i).drop (2 + (b - 48))).take n).length
                  = n / elemSize sing * elemSize sing
               then some (unpackList (elemSize sing) big (n / elemSize sing)
                  (((bytesData.drop i).drop (2 + (b - 48))).take n))
               else none)) := by
  constructor
  · intro b hb h128 hnd hlast
    simp only [parse_binary, hf, hb, hlast]
    rw [if_neg (by omega)]
    rw [if_neg hnd]
    rw [if_neg (by omega : ¬(128 ≤ 10))]
    rw [if_pos (by decide : ((10 : Nat) == 10) = true)]
  · intro b n hb h49 h57 hp
    simp only [parse_binary, hf, hb, hp]
    rw [if_neg (by omega : ¬(128 ≤ b))]
    rw [if_pos (⟨h49, h57⟩ : 49 ≤ b ∧ b ≤ 57)]
    rw [if_neg (show ¬(((n : Nat) : Int) < 0) by omega)]
    rw [Int.toNat_natCast]

/-- Witness for C8 at concrete inputs: `#0` + one packed double + `\n`
decodes through the newline-stripping indefinite branch to one value. -/
theorem claim_C8_witness :
    parse_binary [35, 48, 0, 0, 0, 0, 0, 0, 0, 0, 10] false false = some [0] := by
  have h := (claim_C8_newline_strip [35, 48, 0, 0, 0, 0, 0, 0, 0, 0, 10] false false 0
    (by decide)).1 48 (by decide) (by decide) (by decide) (by decide)
  exact h.trans (by decide)

/-- Failure modes of `get_shared_library_arch` / `get_arch` (Windows
branch): `unpackFailed` models an uncaught `struct.error` from a short
read, `notExec` the two `Exception('Not ... executable')` raises, and
`badSeek` the error from seeking to a negative offset. -/
inductive ProbeError where
  | unpackFailed
  | notExec
  | badSeek
deriving DecidableEq

/-- Signed 32-bit little-endian value of a 4-byte slice (the `l` field
of `struct.unpack('2s58sl', ...)` under the Windows ABI the source
assumes: 4-byte little-endian signed long). -/
def sle32 (l : List Nat) : Int :=
  match l with
  | [b0, b1, b2, b3] =>
    let u := b0 + 256 * b1 + 65536 * b2 + 16777216 * b3
    if u < 2147483648 then (u : Int) else (u : Int) - 4294967296
  | _ => 0

/-- Unsigned 16-bit little-endian value of a 2-byte slice (the `H` field
of `struct.unpack('2s2sH', ...)`). -/
def u16le (l : List Nat) : Nat :=
  match l with
  | [a, b] => a + 256 * b
  | _ => 0

/-- The `machine_types` table of `util.py`: 16-bit machine-type code to
symbolic name.  (The table in the source lists `0x0284` twice, the
second occurrence commented out as a duplicate key.) -/
def machine_types : List (Nat × String) :=
  [(0, "UNKNOWN"), (0x014c, "I386"), (0x0162, "R3000"), (0x0166, "R4000"),
   (0x0168, "R10000"), (0x0169, "WCEMIPSV2"), (0x0184, "ALPHA"), (0x01a2, "SH3"),
   (0x01a3, "SH3DSP"), (0x01a4, "SH3E"), (0x01a6, "SH4"), (0x01a8, "SH5"),
   (0x01c0, "ARM"), (0x01c2, "THUMB"), (0x01c4, "ARMNT"), (0x01d3, "AM33"),
   (0x01f0, "POWERPC"), (0x01f1, "POWERPCFP"), (0x0200, "IA64"), (0x0266, "MIPS16"),
   (0x0284, "ALPHA64"), (0x0366, "MIPSFPU"), (0x0466, "MIPSFPU16"), (0x0520, "TRICORE"),
   (0x0cef, "CEF"), (0x0ebc, "EBC"), (0x8664, "AMD64"), (0x9041, "M32R"),
   (0xc0ee, "CEE")]

/-- `util.get_shared_library_arch(filename)`, over the file's contents.

Faithful order of operations: `fp.read(64)` then `struct.unpack('2s58sl')`
(a `struct.error` — modelled `unpackFailed` — when the file is shorter
than 64 bytes, before any magic check); the `MZ` check; `fp.seek(offset)`
(negative offsets raise, modelled `badSeek`); `fp.read(6)` then
`struct.unpack('2s2sH')` (again `unpackFailed` when fewer than 6 bytes
are available); the `PE` check; then the table lookup with default
`"UNKNOWN"`. -/
def get_shared_library_arch (file : List Nat) : Except ProbeError String :=
  if file.length < 64 then .error .unpackFailed
  else
    let magic := file.take 2
    let off : Int := sle32 ((file.drop 60).take 4)
    if magic ≠ [77, 90] then .error .notExec
    else if off < 0 then .error .badSeek
    else
      let pe := (file.drop off.toNat).take 6
      if pe.length < 6 then .error .unpackFailed
      else if pe.take 2 ≠ [80, 69] then .error .notExec
      else .ok ((machine_types.lookup (u16le (pe.drop 4))).getD "UNKNOWN")

/-- The machine-type-name to architecture-tuple mapping of `get_arch`'s
Windows branch: `'I386' → (32,)`, `'IA64'/'AMD64' → (64,)`, else `()`. -/
def archOf (mt : String) : List Nat :=
  if mt = "I386" then [32]
  else if mt = "IA64" ∨ mt = "AMD64" then [64]
  else []

/-- The Windows branch of `util.get_arch(filename)`: probe the PE header
and map the machine-type name; exceptions propagate. -/
def get_arch_win (file : List Nat) : Except ProbeError (List Nat) :=
  (get_shared_library_arch file).map archOf

/-- Claim C6, amended.  For a file of at least 64 bytes: a wrong `MZ`
magic fails with the not-executable error; with `MZ` present, a
nonnegative header offset and the 6-byte PE region inside the file, a
wrong `PE` signature fails with the not-executable error, and matching
magics give the machine-type-table lookup (default `"UNKNOWN"`), mapped
by the Windows branch of `get_arch` through `archOf`
(`I386 → [32]`, `IA64`/`AMD64 → [64]`, anything else `[]`,
`0x8664 → AMD64 → [64]`). -/
theorem claim_C6_pe_probe (file : List Nat) (hlen : 64 ≤ file.length) :
    (file.take 2 ≠ [77, 90] → get_shared_library_arch file = .error .notExec)
      ∧ (∀ off : Int, file.take 2 = [77, 90] → sle32 ((file.drop 60).take 4) = off →
          0 ≤ off → off.toNat + 6 ≤ file.length →
          ((file.drop off.toNat).take 2 ≠ [80, 69] →
              get_shared_library_arch file = .error .notExec)
            ∧ ((file.drop off.toNat).take 2 = [80, 69] →
                get_shared_library_arch file
                  = .ok ((machine_types.lookup
                      (u16le (((file.drop off.toNat).take 6).drop 4))).getD "UNKNOWN")
                ∧ get_arch_win file
                  = .ok (archOf ((machine_types.lookup
                      (u16le (((file.drop off.toNat).take 6).drop 4))).getD "UNKNOWN"))))
      ∧ (machine_types.lookup 0x8664 = some "AMD64"
          ∧ archOf "AMD64" = [64] ∧ archOf "IA64" = [64] ∧ archOf "I386" = [32]
          ∧ archOf "UNKNOWN" = []
          ∧ ∀ mt : String, mt ≠ "I386" → mt ≠ "IA64" → mt ≠ "AMD64" → archOf mt = []) := by
  refine ⟨?_, ?_, by decide, by decide, by decide, by decide, by decide, ?_⟩
  · intro hmz
    simp only [get_shared_library_arch]
    rw [if_neg (by omega), if_pos hmz]
  · intro off hmz hoff hnonneg hin
    have hpe6 : ((file.drop off.toNat).take 6).length = 6 := by
      simp only [List.length_take, List.length_drop]
      omega
    have htk : ((file.drop off.toNat).take 6).take 2 = (file.drop off.toNat).take 2 := by
      rw [List.take_take]
      norm_num
    constructor
    · intro hsig
      simp only [get_shared_library_arch]
      rw [if_neg (by omega), if_neg (by simp [hmz]), hoff, if_neg (by omega),
        if_neg (by simp only [hpe6]; omega), if_pos (by rw [htk]; exact hsig)]
    · intro hsig
      have hmain : get_shared_library_arch file
          = .ok ((machine_types.lookup
              (u16le (((file.drop off.toNat).take 6).drop 4))).getD "UNKNOWN") := by
        simp only [get_shared_library_arch]
        rw [if_neg (by omega), if_neg (by simp [hmz]), hoff, if_neg (by omega),
          if_neg (by simp only [hpe6]; omega), if_neg (by rw [htk]; simp [hsig])]
      exact ⟨hmain, by simp [get_arch_win, hmain, Except.map]⟩
  · intro mt h1 h2 h3
    simp [archOf, h1, h2, h3]

/-- Witness for C6's amended theorem: a crafted 70-byte file with `MZ`,
header offset 64, `PE` signature and machine code `0x8664` probes to the
architecture tuple `(64,)`. -/
theorem claim_C6_witness :
    get_arch_win ([77, 90] ++ List.replicate 58 0 ++ [64, 0, 0, 0] ++ [80, 69, 0, 0, 100, 134])
      = Except.ok [64] := by
  have h := ((claim_C6_pe_probe
    ([77, 90] ++ List.replicate 58 0 ++ [64, 0, 0, 0] ++ [80, 69, 0, 0, 100, 134])
    (by decide)).2.1 64 (by decide) (by decide) (by decide) (by decide)).2 (by decide)
  exact h.2.trans (congrArg Except.ok (by decide))

/-- Counterexample to C6 as stated: a two-byte file whose first two bytes
are not `MZ` fails with the struct unpack error (the 64-byte header read
comes before the magic check), not with the not-executable error. -/
theorem claim_C6_counterexample :
    get_shared_library_arch [0, 0] = Except.error ProbeError.unpackFailed
      ∧ get_shared_library_arch [0, 0] ≠ Except.error ProbeError.notExec := by
  refine ⟨rfl, fun h => ?_⟩
  rw [show get_shared_library_arch [0, 0] = Except.error ProbeError.unpackFailed from rfl] at h
  exact ProbeError.noConfusion (Except.error.inj h)

/-- Length of the maximal run of ASCII decimal digits at the head of a
character string (`\d*`, greedy). -/
def digitSpan (s : List Char) : Nat := (s.takeWhile Char.isDigit).length

/-- Length of the mantissa part `(?:\d+(?:\.\d*)?|\d*\.\d+)` of the
`_ascii_re` regex, matched at the head of `s` with the source's
alternation order and greedy quantifiers; `none` when the head matches
neither branch. -/
def mantissaSpan (s : List Char) : Option Nat :=
  let d1 := digitSpan s
  if 0 < d1 then
    match s.drop d1 with
    | '.' :: r => some (d1 + 1 + digitSpan r)
    | _ => some d1
  else
    match s with
    | '.' :: r => if 0 < digitSpan r then some (1 + digitSpan r) else none
    | _ => none

/-- Length of the optional exponent `(?:[eE][-+]?\d+)?` at the head of
`s`: `0` when no full exponent is present (the regex backtracks out of a
bare `e` or `e+`). -/
def expSpan (s : List Char) : Nat :=
  match s with
  | c :: rest =>
    if c = 'e' ∨ c = 'E' then
      match rest with
      | c2 :: rest2 =>
        if c2 = '+' ∨ c2 = '-' then
          if 0 < digitSpan rest2 then 2 + digitSpan rest2 else 0
        else if 0 < digitSpan rest then 1 + digitSpan rest else 0
      | [] => 0
    else 0
  | [] => 0

/-- Length of the match of `_ascii_re`
(`[-+]?(?:\d+(?:\.\d*)?|\d*\.\d+)(?:[eE][-+]?\d+)?`) anchored at the
head of `s`, or `none`. -/
def matchNum (s : List Char) : Option Nat :=
  match s with
  | c :: rest =>
    if c = '+' ∨ c = '-' then
      match mantissaSpan rest with
      | some m => some (1 + m + expSpan (rest.drop m))
      | none => none
    else
      match mantissaSpan s with
      | some m => some (m + expSpan (s.drop m))
      | none => none
  | [] => none

/-- `re.findall` scan: at each position try the anchored match; on
success emit the matched substring and continue right after it, else
advance one character.  Fuel-structured on the remaining length. -/
def scanGo : Nat → List Char → List (List Char)
  | 0, _ => []
  | _ + 1, [] => []
  | fuel + 1, s =>
    match matchNum s with
    | some L => s.take L :: scanGo fuel (s.drop L)
    | none => scanGo fuel (s.drop 1)

/-- `_ascii_re.findall(s)`. -/
def tokenize (s : List Char) : List (List Char) := scanGo s.length s

/-- Numeric value of a run of ASCII digits. -/
def digitsValC (l : List Char) : Nat := l.foldl (fun a c => a * 10 + (c.toNat - 48)) 0

/-- The discrete decomposition of a matched token: sign, integer-part
value, fractional-part value, fractional-part digit count, exponent. -/
def tokenParts (t : List Char) : Int × Nat × Nat × Nat × Int :=
  let sgn : Int × List Char :=
    match t with
    | '-' :: r => (-1, r)
    | '+' :: r => (1, r)
    | _ => (1, t)
  let ip := sgn.2.takeWhile Char.isDigit
  let s1 := sgn.2.drop ip.length
  let fp : List Char × List Char :=
    match s1 with
    | '.' :: r => (r.takeWhile Char.isDigit, r.drop (r.takeWhile Char.isDigit).length)
    | _ => ([], s1)
  let ex : Int :=
    match fp.2 with
    | c :: r =>
      if c = 'e' ∨ c = 'E' then
        match r with
        | '-' :: r2 => -(digitsValC (r2.takeWhile Char.isDigit) : Int)
        | '+' :: r2 => (digitsValC (r2.takeWhile Char.isDigit) : Int)
        | _ => (digitsValC (r.takeWhile Char.isDigit) : Int)
      else 0
    | [] => 0
  (sgn.1, digitsValC ip, digitsValC fp.1, fp.1.length, ex)

/-- Exact value of one matched token, as a rational: Python's `float()`
rounds this value to the nearest double; the tokens of the claim's
example are all exactly representable, so the rational value coincides
with the float. -/
def ratOfToken (t : List Char) : ℚ :=
  let p := tokenParts t
  (p.1 : ℚ) * ((p.2.1 : ℚ) + (p.2.2.1 : ℚ) / (10 : ℚ) ^ p.2.2.2.1) * (10 : ℚ) ^ p.2.2.2.2

/-- `util.parse_ascii(ascii_data)` with the default `list` container:
the float of every regex match, in order. -/
def parse_ascii (s : List Char) : List ℚ := (tokenize s).map ratOfToken

/-- Spec-side checker, written from the spec's grammar words
(`[-+]?(\d+(\.\d*)?|\.\d+)([eE][-+]?\d+)?`): does `s` consist exactly of
an optional exponent part anchored to the end? -/
def specExpTail (s : List Char) : Bool :=
  match s with
  | [] => true
  | c :: r =>
    if c = 'e' ∨ c = 'E' then
      match r with
      | c2 :: r2 =>
        if c2 = '+' ∨ c2 = '-' then decide (r2 ≠ []) && r2.all Char.isDigit
        else decide (r ≠ []) && r.all Char.isDigit
      | [] => false
    else false

/-- Spec-side checker: does `s` consist exactly of a mantissa
(`\d+(\.\d*)?` or `\.\d+`) followed by an optional exponent? -/
def specMantExp (s : List Char) : Bool :=
  let d1 := digitSpan s
  if 0 < d1 then
    match s.drop d1 with
    | '.' :: r => specExpTail (r.drop (digitSpan r))
    | rest => specExpTail rest
  else
    match s with
    | '.' :: r => if 0 < digitSpan r then specExpTail (r.drop (digitSpan r)) else false
    | _ => false

/-- Spec-side checker: does the whole string `t` match the spec's
signed-decimal grammar? -/
def specNum (t : List Char) : Bool :=
  match t with
  | c :: r => if c = '+' ∨ c = '-' then specMantExp r else specMantExp t
  | [] => false


/-! ## Lemmas relating the scanner to the spec grammar -/

theorem takeWhile_take (p : Char → Bool) :
    ∀ (k : Nat) (s : List Char), (s.take k).takeWhile p = (s.takeWhile p).take k := by
  intro k
  induction k generalizing p with
  | zero => intro s; simp
  | succ k ih =>
    intro s
    cases s with
    | nil => simp
    | cons x xs =>
      by_cases hp : p x
      · simp [List.takeWhile_cons, hp, ih]
      · simp [List.takeWhile_cons, hp]
  
theorem digitSpan_take (k : Nat) (s : List Char) :
    digitSpan (s.take k) = min k (digitSpan s) := by
  rw [digitSpan, takeWhile_take, List.length_take, digitSpan]

theorem take_digitSpan (s : List Char) :
    s.take (digitSpan s) = s.takeWhile Char.isDigit := by
  obtain ⟨t, ht⟩ := List.takeWhile_prefix (l := s) Char.isDigit
  have hlen : (s.takeWhile Char.isDigit).length = digitSpan s := rfl
  calc s.take (digitSpan s) = (s.takeWhile Char.isDigit ++ t).take (digitSpan s) := by
        rw [ht]
  _ = s.takeWhile Char.isDigit := List.take_left' hlen

theorem drop_take_comm (s : List Char) (a b : Nat) :
    (s.take (a + b)).drop a = (s.drop a).take b := by
  rw [List.drop_take]
  congr 1
  omega

theorem digitSpan_le_length (s : List Char) : digitSpan s ≤ s.length :=
  (List.takeWhile_prefix Char.isDigit).length_le

theorem digits_take_ok (r : List Char) (hd : 0 < digitSpan r) :
    (decide (r.take (digitSpan r) ≠ []) && (r.take (digitSpan r)).all Char.isDigit) = true := by
  rw [take_digitSpan]
  have hne : r.takeWhile Char.isDigit ≠ [] := by
    intro h
    rw [digitSpan, h] at hd
    simp at hd
  simp [hne, List.all_takeWhile]

theorem take_digitSpan_cons (c2 : Char) (rest2 : List Char)
    (hd : 0 < digitSpan (c2 :: rest2)) :
    (c2 :: rest2).take (digitSpan (c2 :: rest2))
      = c2 :: rest2.take (digitSpan (c2 :: rest2) - 1) := by
  cases hds : digitSpan (c2 :: rest2) with
  | zero => omega
  | succ k => simp

/-- The token text of a matched exponent part satisfies the spec's
exponent grammar (anchored). -/
theorem specExpTail_take_expSpan (u : List Char) :
    specExpTail (u.take (expSpan u)) = true := by
  cases u with
  | nil => rfl
  | cons c rest =>
    by_cases he : c = 'e' ∨ c = 'E'
    · cases rest with
      | nil =>
        have hexp : expSpan (c :: ([] : List Char)) = 0 := by
          simp [expSpan, he]
        rw [hexp]
        rfl
      | cons c2 rest2 =>
        by_cases hsgn : c2 = '+' ∨ c2 = '-'
        · by_cases hd : 0 < digitSpan rest2
          · have hexp : expSpan (c :: c2 :: rest2) = 2 + digitSpan rest2 := by
              simp [expSpan, he, hsgn, hd]
            rw [hexp]
            have htake : (c :: c2 :: rest2).take (2 + digitSpan rest2)
                = c :: c2 :: rest2.take (digitSpan rest2) := by
              rw [show 2 + digitSpan rest2 = digitSpan rest2 + 1 + 1 by omega]
              simp
            rw [htake]
            simp only [specExpTail, if_pos he, if_pos hsgn]
            exact digits_take_ok rest2 hd
          · have hexp : expSpan (c :: c2 :: rest2) = 0 := by
              simp [expSpan, he, hsgn, hd]
            rw [hexp]
            rfl
        · by_cases hd : 0 < digitSpan (c2 :: rest2)
          · have hexp : expSpan (c :: c2 :: rest2) = 1 + digitSpan (c2 :: rest2) := by
              simp [expSpan, he, hsgn, hd]
            rw [hexp]
            have htake : (c :: c2 :: rest2).take (1 + digitSpan (c2 :: rest2))
                = c :: (c2 :: rest2).take (digitSpan (c2 :: rest2)) := by
              rw [show 1 + digitSpan (c2 :: rest2) = digitSpan (c2 :: rest2) + 1 by omega]
              simp
            rw [htake, take_digitSpan_cons c2 rest2 hd]
            simp only [specExpTail, if_pos he, if_neg hsgn]
            rw [← take_digitSpan_cons c2 rest2 hd]
            exact digits_take_ok (c2 :: rest2) hd
          · have hexp : expSpan (c :: c2 :: rest2) = 0 := by
              simp [expSpan, he, hsgn, hd]
            rw [hexp]
            rfl
    · have hexp : expSpan (c :: rest) = 0 := by
        cases rest <;> simp [expSpan, he]
      rw [hexp]
      rfl

theorem digitSpan_dot_cons (r : List Char) : digitSpan ('.' :: r) = 0 := by
  simp [digitSpan, List.takeWhile_cons]

/-- Unfolding `specMantExp` on a token that starts with the maximal
digit run of `s`. -/
theorem specMantExp_take_digits (s : List Char) (hd1 : 0 < digitSpan s) (k : Nat) :
    specMantExp (s.take (digitSpan s + k))
      = (match (s.drop (digitSpan s)).take k with
         | '.' :: r => specExpTail (r.drop (digitSpan r))
         | rest => specExpTail rest) := by
  unfold specMantExp
  have h1 : digitSpan (s.take (digitSpan s + k)) = digitSpan s := by
    rw [digitSpan_take]
    omega
  rw [h1, if_pos hd1, drop_take_comm]

/-- Unfolding `specMantExp` on a dot-headed token. -/
theorem specMantExp_dot (x : List Char) :
    specMantExp ('.' :: x)
      = (if 0 < digitSpan x then specExpTail (x.drop (digitSpan x)) else false) := by
  unfold specMantExp
  rw [digitSpan_dot_cons, if_neg (lt_irrefl 0)]
  rfl

/-- The token text of a matched mantissa-plus-exponent satisfies the
spec's mantissa-exponent grammar (anchored). -/
theorem specMantExp_take (s : List Char) (m : Nat) (hm : mantissaSpan s = some m) :
    specMantExp (s.take (m + expSpan (s.drop m))) = true := by
  by_cases hd1 : 0 < digitSpan s
  · cases hdrop : s.drop (digitSpan s) with
    | nil =>
      have hm' : m = digitSpan s := by
        unfold mantissaSpan at hm
        rw [if_pos hd1, hdrop] at hm
        exact (Option.some.inj hm).symm
      subst hm'
      rw [specMantExp_take_digits s hd1 (expSpan (s.drop (digitSpan s))), hdrop]
      rfl
    | cons c r =>
      by_cases hc : c = '.'
      · subst hc
        have hm' : m = digitSpan s + 1 + digitSpan r := by
          unfold mantissaSpan at hm
          rw [if_pos hd1, hdrop] at hm
          exact (Option.some.inj hm).symm
        subst hm'
        set d1 := digitSpan s with hd1def
        set d2 := digitSpan r with hd2def
        set e := expSpan (s.drop (d1 + 1 + d2)) with hedef
        have hk : d1 + 1 + d2 + e = d1 + (1 + (d2 + e)) := by omega
        rw [hk, specMantExp_take_digits s hd1 (1 + (d2 + e)), hdrop]
        have htk : ('.' :: r).take (1 + (d2 + e)) = '.' :: r.take (d2 + e) := by
          rw [show 1 + (d2 + e) = (d2 + e) + 1 by omega]
          simp
        rw [htk]
        have hds : digitSpan (r.take (d2 + e)) = d2 := by
          rw [digitSpan_take]
          omega
        show specExpTail ((r.take (d2 + e)).drop (digitSpan (r.take (d2 + e)))) = true
        rw [hds, drop_take_comm]
        have hu : s.drop (d1 + 1 + d2) = r.drop d2 := by
          rw [show d1 + 1 + d2 = d1 + (1 + d2) by omega, ← List.drop_drop, hdrop,
            show 1 + d2 = d2 + 1 by omega, List.drop_succ_cons]
        have he2 : e = expSpan (r.drop d2) := by rw [hedef, hu]
        rw [he2]
        exact specExpTail_take_expSpan (r.drop d2)
      · have hm' : m = digitSpan s := by
          unfold mantissaSpan at hm
          rw [if_pos hd1, hdrop] at hm
          split at hm
          · rename_i r2 heq
            injection heq with h1 h2
            first
            | exact absurd h1 hc
            | exact absurd h1.symm hc
          · exact (Option.some.inj hm).symm
        subst hm'
        set e := expSpan (s.drop (digitSpan s)) with hedef
        rw [specMantExp_take_digits s hd1 e, hdrop]
        split
        · rename_i r2 heq
          cases he0 : e with
          | zero =>
            rw [he0] at heq
            simp at heq
          | succ k =>
            rw [he0, List.take_succ_cons] at heq
            injection heq with h1 h2
            first
            | exact absurd h1 hc
            | exact absurd h1.symm hc
        · rw [← hdrop]
          exact specExpTail_take_expSpan (s.drop (digitSpan s))
  · cases s with
    | nil => exact Option.noConfusion hm
    | cons c r =>
      by_cases hc : c = '.'
      · subst hc
        have hd2m : 0 < digitSpan r ∧ m = 1 + digitSpan r := by
          unfold mantissaSpan at hm
          rw [if_neg hd1] at hm
          split at hm
          · rename_i r2 heq
            injection heq with h1 h2
            subst h2
            split at hm
            · rename_i hpos
              exact ⟨hpos, (Option.some.inj hm).symm⟩
            · exact absurd hm (by simp)
          · exact absurd hm (by simp)
        obtain ⟨hd2, hm'⟩ := hd2m
        subst hm'
        set d2 := digitSpan r with hd2def
        set e := expSpan (('.' :: r).drop (1 + d2)) with hedef
        have htk : ('.' :: r).take (1 + d2 + e) = '.' :: r.take (d2 + e) := by
          rw [show 1 + d2 + e = (d2 + e) + 1 by omega]
          simp
        rw [htk, specMantExp_dot]
        have hds : digitSpan (r.take (d2 + e)) = d2 := by
          rw [digitSpan_take]
          omega
        rw [hds, if_pos hd2, drop_take_comm]
        have hu : ('.' :: r).drop (1 + d2) = r.drop d2 := by
          rw [show 1 + d2 = d2 + 1 by omega]
          simp
        have he2 : e = expSpan (r.drop d2) := by rw [hedef, hu]
        rw [he2]
        exact specExpTail_take_expSpan (r.drop d2)
      · exfalso
        unfold mantissaSpan at hm
        rw [if_neg hd1] at hm
        split at hm
        · rename_i r2 heq
          injection heq with h1 h2
          first
          | exact absurd h1 hc
          | exact absurd h1.symm hc
        · exact Option.noConfusion hm

theorem mantissaSpan_one_le (s : List Char) (m : Nat) (h : mantissaSpan s = some m) :
    1 ≤ m := by
  unfold mantissaSpan at h
  by_cases hd1 : 0 < digitSpan s
  · rw [if_pos hd1] at h
    split at h
    · have := Option.some.inj h
      omega
    · have := Option.some.inj h
      omega
  · rw [if_neg hd1] at h
    split at h
    · split at h
      · have := Option.some.inj h
        omega
      · exact Option.noConfusion h
    · exact Option.noConfusion h

/-- Every anchored match of the source regex satisfies the spec's
grammar checker on exactly the matched text. -/
theorem matchNum_cons (c : Char) (rest : List Char) :
    matchNum (c :: rest)
      = (if c = '+' ∨ c = '-' then
          match mantissaSpan rest with
          | some m => some (1 + m + expSpan (rest.drop m))
          | none => none
        else
          match mantissaSpan (c :: rest) with
          | some m => some (m + expSpan ((c :: rest).drop m))
          | none => none) := rfl

theorem specNum_cons (c : Char) (r : List Char) :
    specNum (c :: r)
      = if c = '+' ∨ c = '-' then specMantExp r else specMantExp (c :: r) := rfl

theorem matchNum_spec (s : List Char) (L : Nat) (h : matchNum s = some L) :
    specNum (s.take L) = true := by
  cases s with
  | nil => exact Option.noConfusion h
  | cons c rest =>
    rw [matchNum_cons] at h
    by_cases hsgn : c = '+' ∨ c = '-'
    · rw [if_pos hsgn] at h
      cases hm : mantissaSpan rest with
      | none =>
        rw [hm] at h
        exact Option.noConfusion h
      | some mm =>
        rw [hm] at h
        have hL : L = 1 + mm + expSpan (rest.drop mm) := (Option.some.inj h).symm
        subst hL
        have htk : (c :: rest).take (1 + mm + expSpan (rest.drop mm))
            = c :: rest.take (mm + expSpan (rest.drop mm)) := by
          rw [show 1 + mm + expSpan (rest.drop mm)
              = (mm + expSpan (rest.drop mm)) + 1 by omega]
          simp
        rw [htk, specNum_cons, if_pos hsgn]
        exact specMantExp_take rest mm hm
    · rw [if_neg hsgn] at h
      cases hm : mantissaSpan (c :: rest) with
      | none =>
        rw [hm] at h
        exact Option.noConfusion h
      | some mm =>
        rw [hm] at h
        have hL : L = mm + expSpan ((c :: rest).drop mm) := (Option.some.inj h).symm
        subst hL
        have hmm : 1 ≤ mm := mantissaSpan_one_le _ _ hm
        have htk : (c :: rest).take (mm + expSpan ((c :: rest).drop mm))
            = c :: rest.take (mm + expSpan ((c :: rest).drop mm) - 1) := by
          rw [show mm + expSpan ((c :: rest).drop mm)
              = (mm + expSpan ((c :: rest).drop mm) - 1) + 1 by omega]
          simp
        rw [htk, specNum_cons, if_neg hsgn, ← htk]
        exact specMantExp_take (c :: rest) mm hm

/-- Every token the findall scan emits satisfies the spec's grammar. -/
theorem scanGo_spec : ∀ (fuel : Nat) (s t : List Char),
    t ∈ scanGo fuel s → specNum t = true := by
  intro fuel
  induction fuel with
  | zero =>
    intro s t ht
    exact absurd ht (by simp [scanGo])
  | succ f ih =>
    intro s t ht
    cases s with
    | nil => exact absurd ht (by simp [scanGo])
    | cons c rest =>
      unfold scanGo at ht
      cases hmn : matchNum (c :: rest) with
      | some L =>
        rw [hmn] at ht
        rcases List.mem_cons.mp ht with h1 | h2
        · rw [h1]
          exact matchNum_spec _ L hmn
        · exact ih _ t h2
      | none =>
        rw [hmn] at ht
        exact ih _ t ht

/-- Claim C7.  `parse_ascii("1.5, -2, +3.2e1 abc")` yields exactly
`[1.5, -2.0, 32.0]` (all three doubles exact, so the rational model
coincides with `float`), and in general every substring the scan emits
matches the spec's signed-decimal grammar — everything else is silently
skipped by construction of the scan. -/
theorem claim_C7_parse_ascii :
    parse_ascii ("1.5, -2, +3.2e1 abc".toList) = [3 / 2, -2, 32]
      ∧ ∀ (s t : List Char), t ∈ tokenize s → specNum t = true := by
  constructor
  · have htok : tokenize "1.5, -2, +3.2e1 abc".toList
        = ["1.5".toList, "-2".toList, "+3.2e1".toList] := by decide
    rw [parse_ascii, htok]
    simp only [List.map_cons, List.map_nil, ratOfToken,
      (by decide : tokenParts "1.5".toList = (1, 1, 5, 1, 0)),
      (by decide : tokenParts "-2".toList = (-1, 2, 0, 0, 0)),
      (by decide : tokenParts "+3.2e1".toList = (1, 3, 2, 1, 1))]
    norm_num
  · intro s t ht
    exact scanGo_spec s.length s t ht

/-- Witness for C7's general conjunct at a concrete input. -/
theorem claim_C7_witness : specNum ("1.5".toList) = true :=
  claim_C7_parse_ascii.2 "1.5, -2, +3.2e1 abc".toList "1.5".toList (by decide)

/-- The `LibraryPath` object of `util.py`, as explicit state: the string
value and `found_by` are carried along, and `arch_cache` models the
`_arch` attribute (`None` before the first read of the `arch`
property). -/
structure LibraryPath where
  path : String
  found_by : String
  arch_cache : Option (List Nat)

/-- Reading the `arch` property.  `get_arch` touches the file system and
the host platform, so it is abstracted as a parameter
`g : String → Except Unit (List Nat)`; the bare `except:` of the source
catches every exception (`Except.error`) and stores the empty tuple.
Returns the property value and the object state after the read. -/
def LibraryPath.archRead (g : String → Except Unit (List Nat)) (lp : LibraryPath) :
    List Nat × LibraryPath :=
  match lp.arch_cache with
  | some a => (a, lp)
  | none =>
    let v := match g lp.path with
      | .ok a => a
      | .error _ => []
    (v, { lp with arch_cache := some v })

/-- Claim C10.  Reading `arch` never raises (the model is total and the
error case of the abstracted `get_arch` is mapped to the empty tuple,
second conjunct); and after one read the value is cached on the object:
a second read — even with a different, arbitrarily failing or disagreeing
`get_arch` behaviour `g2` — returns the identical value and leaves the
state unchanged (first conjunct), so no recomputation is observable. -/
theorem claim_C10_arch_cached (g g2 : String → Except Unit (List Nat))
    (lp : LibraryPath) :
    ((lp.archRead g).2.archRead g2 = ((lp.archRead g).1, (lp.archRead g).2))
      ∧ (∀ e, lp.arch_cache = none → g lp.path = .error e → (lp.archRead g).1 = []) := by
  constructor
  · cases hc : lp.arch_cache with
    | some a => simp [LibraryPath.archRead, hc]
    | none =>
      cases hg : g lp.path with
      | ok a => simp [LibraryPath.archRead, hc, hg]
      | error err => simp [LibraryPath.archRead, hc, hg]
  · intro e hc hg
    simp [LibraryPath.archRead, hc, hg]

/-- Witness for C10 at a concrete object and a probe that always
raises: the property read yields the empty tuple. -/
theorem claim_C10_witness :
    ((LibraryPath.mk "p" "auto" none).archRead (fun _ => Except.error ())).1 = [] :=
  (claim_C10_arch_cached (fun _ => Except.error ()) (fun _ => Except.ok [32])
    (LibraryPath.mk "p" "auto" none)).2 () rfl rfl
